import Mathlib

/-!
Verification of the feature-dynamics naming codec, dictionary builder,
completeness filter and windowed-view construction of this repository.

Strings are modelled as `List Char`; the Python string operations used by
the source (`str.replace` with and without a count, `str.split`, substring
test with `in`, `int(...)`, `str(...)` of an integer) are embedded as
executable functions on `List Char` with Python semantics for non-empty
separators (the source never uses an empty separator).
-/

namespace Tsfresh

/-- Strings are lists of characters. -/
abbrev Str := List Char

/-- The token `"__"` separating stage-2 (feature dynamics) name parts. -/
def uu : Str := ['_', '_']

/-- The token `"||"` separating the ts kind from the feature name. -/
def barbar : Str := ['|', '|']

/-- The token `"|"` separating feature time series parameters. -/
def bar : Str := ['|']

/-- The token `"@"` introducing the window tag. -/
def atTok : Str := ['@']

/-- The token `"window_"` carrying the window length. -/
def windowTok : Str := ['w', 'i', 'n', 'd', 'o', 'w', '_']

/-- Substring test: Python `sep in s`. -/
def containsSeq (sep : Str) : Str → Bool
  | [] => sep.isEmpty
  | c :: rest => sep.isPrefixOf (c :: rest) || containsSeq sep rest

/-- Python `s.replace(old, new, 1)`: replace the leftmost occurrence of
`old` only.  (For an empty `old` Python would insert `new` at the front;
the source only ever replaces the non-empty token `"__"`.) -/
def replaceFirst (old new : Str) : Str → Str
  | [] => []
  | c :: rest =>
    if old.isPrefixOf (c :: rest) then new ++ (c :: rest).drop old.length
    else c :: replaceFirst old new rest

/-- Worker for `pyReplace`: scans left to right; a positive skip counter
records how many characters of a just-matched separator remain to be
consumed, matching the non-overlapping leftmost semantics of Python
`str.replace`. -/
def replaceAllAux (o : Char) (os new : Str) : Nat → Str → Str
  | _, [] => []
  | k + 1, _ :: rest => replaceAllAux o os new k rest
  | 0, c :: rest =>
    if (o :: os).isPrefixOf (c :: rest) then new ++ replaceAllAux o os new os.length rest
    else c :: replaceAllAux o os new 0 rest

/-- Python `s.replace(old, new)` for a non-empty `old` (the source never
replaces an empty separator). -/
def pyReplace (old new s : Str) : Str :=
  match old with
  | [] => s
  | o :: os => replaceAllAux o os new 0 s

/-- Worker for `pySplit`, with the same skip-counter scheme as
`replaceAllAux`. -/
def splitOnAux (o : Char) (os : Str) : Nat → Str → List Str
  | _, [] => [[]]
  | k + 1, _ :: rest => splitOnAux o os k rest
  | 0, c :: rest =>
    if (o :: os).isPrefixOf (c :: rest) then [] :: splitOnAux o os os.length rest
    else
      match splitOnAux o os 0 rest with
      | [] => [[c]]
      | p :: ps => (c :: p) :: ps

/-- Python `s.split(sep)` for a non-empty `sep` (Python raises on an empty
separator; the source only splits on `"__"`). -/
def pySplit (sep s : Str) : List Str :=
  match sep with
  | [] => [s]
  | o :: os => splitOnAux o os 0 s

/-- The decimal digit characters, as produced by Python `str` on `int`. -/
def digitChar (n : Nat) : Char :=
  match n with
  | 0 => '0' | 1 => '1' | 2 => '2' | 3 => '3' | 4 => '4'
  | 5 => '5' | 6 => '6' | 7 => '7' | 8 => '8' | _ => '9'

/-- Fuel-indexed worker for `natDigits`; any fuel above the argument gives
the decimal digit string. -/
def natDigitsAux : Nat → Nat → Str
  | 0, _ => []
  | fuel + 1, n =>
    if n < 10 then [digitChar n]
    else natDigitsAux fuel (n / 10) ++ [digitChar (n % 10)]

/-- Decimal digit string of a natural number, most significant first. -/
def natDigits (n : Nat) : Str := natDigitsAux (n + 1) n

/-- Python `str(i)` for an `int` value `i`. -/
def intStr (i : Int) : Str :=
  if i < 0 then '-' :: natDigits i.natAbs else natDigits i.toNat

/-- The numeric value of a decimal digit character, if it is one. -/
def digitVal (c : Char) : Option Nat :=
  if 48 ≤ c.toNat ∧ c.toNat ≤ 57 then some (c.toNat - 48) else none

/-- Accumulating decimal parser; fails on any non-digit character. -/
def parseDigitsAux : Nat → Str → Option Nat
  | acc, [] => some acc
  | acc, c :: rest =>
    match digitVal c with
    | some d => parseDigitsAux (acc * 10 + d) rest
    | none => none

/-- Parse a non-empty all-digit string. -/
def parseDigits (s : Str) : Option Nat :=
  match s with
  | [] => none
  | _ :: _ => parseDigitsAux 0 s

/-- Python `int(s)`: an optional sign followed by decimal digits.
(Python additionally strips surrounding whitespace and accepts single
underscores between digits; no input in this development uses those
forms.) -/
def pyInt (s : Str) : Option Int :=
  match s with
  | [] => none
  | c :: rest =>
    if c = '-' then (parseDigits rest).map (fun n => -(n : Int))
    else if c = '+' then (parseDigits rest).map (fun n => (n : Int))
    else (parseDigits (c :: rest)).map (fun n => (n : Int))

deriving instance DecidableEq for Except

/-- The Python exceptions raised by the embedded source functions. -/
inductive PyError
  | valueError
  | typeError
  | indexError
deriving DecidableEq, Repr

/-- Result of `parse_feature_timeseries_parts`: the window length and the
feature time series parts. -/
structure FtsInfo where
  window_length : Int
  fts_parts : List Str
deriving DecidableEq, Repr

/-- Embedding of `clean_feature_timeseries_name`
(feature_dynamics_utils.py, lines 12-24): replace the first `"__"` with
`"||"`, every remaining `"__"` with `"|"`, and append
`"@window_" + str(window_length)`. -/
def clean_feature_timeseries_name (feature_timeseries_name : Str)
    (window_length : Int) : Str :=
  pyReplace uu bar (replaceFirst uu barbar feature_timeseries_name)
    ++ atTok ++ windowTok ++ intStr window_length

/-- The token list computed by `parse_feature_timeseries_parts`
(feature_dynamics_utils.py, lines 87-93): take the text before the first
`"__"`, turn `"||"`, `"|"` and `"@"` back into `"__"`, and split on
`"__"`. -/
def fts_tokens (full_feature_name : Str) : List Str :=
  pySplit uu
    (pyReplace atTok uu
      (pyReplace bar uu
        (pyReplace barbar uu
          ((pySplit uu full_feature_name).headD []))))

/-- Embedding of `parse_feature_timeseries_parts`
(feature_dynamics_utils.py, lines 64-113).  The final token must contain
`"window_"`; the window length is `int` of that token with every
`"window_"` removed (a failing `int` raises `ValueError`, as in Python);
exactly one remaining part raises `ValueError`. -/
def parse_feature_timeseries_parts (full_feature_name : Str) :
    Except PyError FtsInfo :=
  let fts_parts := fts_tokens full_feature_name
  if containsSeq windowTok (fts_parts.getLastD []) = false then
    .error .valueError
  else
    match pyInt (pyReplace windowTok [] (fts_parts.getLastD [])) with
    | none => .error .valueError
    | some window_length =>
      let fts := fts_parts.dropLast
      if fts.length = 1 then .error .valueError
      else .ok ⟨window_length, fts⟩

/-- Embedding of `parse_feature_dynamics_parts`
(feature_dynamics_utils.py, lines 116-141): split the full name on
`"__"`; a single resulting part raises `ValueError`. -/
def parse_feature_dynamics_parts (full_feature_name : Str) :
    Except PyError (List Str) :=
  let fd_parts := pySplit uu full_feature_name
  if fd_parts.length = 1 then .error .valueError else .ok fd_parts

/-- Modelled from the spec: a token of the form `window_<integer>`, the
shape the spec requires of the final fts token (spec 4.2: the final token
must match `window_<integer>`). -/
def spec_window_token (s : Str) : Bool :=
  windowTok.isPrefixOf s && (pyInt (s.drop windowTok.length)).isSome

/-- A Python numeric value passed as a `split_size`: an `int`, or a
`float` given by a rational (`none` denoting NaN). -/
inductive PyNumber
  | pyInt (i : Int)
  | pyFloat (q : Option ℚ)
deriving DecidableEq, Repr

/-- Modelled from the spec: the integer value of a `split_size` argument
if it has one; non-integer floats and NaN have none (spec 4.1 rejects
non-integer and NaN split sizes). -/
def PyNumber.asInteger : PyNumber → Option Int
  | .pyInt i => some i
  | .pyFloat none => none
  | .pyFloat (some q) => if q.den = 1 then some q.num else none

/-- Modelled from the spec: the windowed view `IterableSplitTsData`
(feature_dynamics_data.py is not under src/, only its tests are): it
wraps the source series of the dataset and an immutable split size.  The
numeric payload of a series is abstracted as `Int`; only series lengths
matter to construction. -/
structure SplitTsData where
  series : List (List Int)
  split_size : Nat
deriving DecidableEq, Repr

/-- Modelled from the spec: construction of `IterableSplitTsData`
validates `split_size` at construction time: it must be an integer,
positive, and no larger than the length of any series present, else
`ValueError` is raised (spec 4.1 and 7; tests
`test_too_large_split_size`, `test_negative_split_size`,
`test_zero_split_size`, `test_fractional_split_size`). -/
def mkIterableSplitTsData (data : List (List Int)) (split_size : PyNumber) :
    Except PyError SplitTsData :=
  match split_size.asInteger with
  | none => .error .valueError
  | some i =>
    if i ≤ 0 then .error .valueError
    else if data.any (fun s => s.length < i.toNat) then .error .valueError
    else .ok ⟨data, i.toNat⟩

/-- First-occurrence deduplication with an accumulator of already-seen
elements; embeds the order-preserving `pandas.Series.unique`. -/
def pdUniqueAux {α : Type} [DecidableEq α] (acc : List α) : List α → List α
  | [] => acc
  | x :: xs => if x ∈ acc then pdUniqueAux acc xs else pdUniqueAux (acc ++ [x]) xs

/-- Order-preserving deduplication, as `pandas.Series.unique`. -/
def pdUnique {α : Type} [DecidableEq α] (l : List α) : List α := pdUniqueAux [] l

/-- One row of the long-format stage-1 extraction output: a composite id
`(original_id, window_index)`, a feature name (the `kind` column), and a
value that may be missing.  The numeric payload is abstracted as `Int`;
only missingness matters to the completeness filter. -/
structure FtsRow where
  row_id : Int × Int
  kind : Str
  value : Option Int
deriving DecidableEq, Repr

/-- Embedding of line 157 of feature_dynamics_extraction.py: the unique
feature names having a null value in some row. -/
def stage1_nan_target_list (rows : List FtsRow) : List Str :=
  pdUnique ((rows.filter (fun r => r.value.isNone)).map (fun r => r.kind))

/-- Embedding of line 159 of feature_dynamics_extraction.py: keep only
the rows whose feature name is not in the target list. -/
def stage1_completeness_filter (rows : List FtsRow) : List FtsRow :=
  rows.filter (fun r => decide (r.kind ∉ stage1_nan_target_list rows))

/-- A parameter configuration of one calculator.  Modelled from the spec:
`get_config_from_string` (tsfresh.utilities.string_manipulation, not under
src/) parses the parameter segments into keyword arguments; the
configuration is abstracted as the raw list of parameter segments. -/
abbrev Config := List Str

/-- Calculator name to parameter list (or Python `None`). -/
abbrev CalcMap := List (Str × Option (List Config))

/-- Column (ts kind or fts name) to calculator map. -/
abbrev KindMap := List (Str × CalcMap)

/-- The feature dictionary: window length to column to calculator to
parameters.  Python dictionaries are modelled as association lists with
unique keys, insertion ordered. -/
abbrev FeatureDict := List (Int × KindMap)

instance : DecidableEq CalcMap := inferInstance

instance : DecidableEq KindMap := inferInstance

instance : DecidableEq FeatureDict := inferInstance

/-- First-match lookup in an association list (Python `dict` access). -/
def alookup {α β : Type} [DecidableEq α] (k : α) : List (α × β) → Option β
  | [] => none
  | (k', v) :: rest => if k = k' then some v else alookup k rest

/-- Python `dict` assignment: replace the value at an existing key in
place, else append the new binding. -/
def aset {α β : Type} [DecidableEq α] (k : α) (v : β) :
    List (α × β) → List (α × β)
  | [] => [(k, v)]
  | (k', v') :: rest => if k = k' then (k, v) :: rest else (k', v') :: aset k v rest

/-- Modelled from the spec: `get_config_from_string(feature_parts)`
(external to src/) builds the configuration from the parameter segments
after kind and calculator name, and is falsy when there are none. -/
def get_config_from_string (parts : List Str) : Option Config :=
  if parts.length ≤ 2 then none else some (parts.drop 2)

/-- The three-level lookup `feature_dictionary[window_length][ts_kind]`
followed by the calculator name, with absent outer levels read as empty
dictionaries. -/
def lookup3 (d : FeatureDict) (w : Int) (kind fname : Str) :
    Option (Option (List Config)) :=
  alookup fname ((alookup kind ((alookup w d).getD [])).getD [])

/-- Embedding of lines 42-43 of feature_dynamics_utils.py:
`if window_length not in feature_dictionary: ... = {}`. -/
def ensure_window (d : FeatureDict) (w : Int) : FeatureDict :=
  match alookup w d with
  | none => aset w [] d
  | some _ => d

/-- Embedding of lines 45-46 of feature_dynamics_utils.py:
`if ts_kind not in feature_dictionary[window_length]: ... = {}`. -/
def ensure_kind (d : FeatureDict) (w : Int) (kind : Str) : FeatureDict :=
  let km := (alookup w d).getD []
  match alookup kind km with
  | none => aset w (aset kind [] km) d
  | some _ => d

/-- The Python assignment
`feature_dictionary[window_length][ts_kind][feature_name] = v`. -/
def set_calc (d : FeatureDict) (w : Int) (kind fname : Str)
    (v : Option (List Config)) : FeatureDict :=
  let km := (alookup w d).getD []
  let cm := (alookup kind km).getD []
  aset w (aset kind (aset fname v cm) km) d

/-- Embedding of `update_feature_dictionary`
(feature_dynamics_utils.py, lines 27-61).  The external calculator
catalog is abstracted as the membership predicate `catalog`
(`hasattr(feature_calculators, feature_name)`).  Python raises
`IndexError` when `feature_parts` has fewer than two entries, and
`TypeError` on `config not in None` when the stored parameters are
`None`.  (On an exception the partially inserted window and kind levels
stay visible to the caller in Python; only the normal return value is
modelled.) -/
def update_feature_dictionary (catalog : Str → Bool)
    (feature_dictionary : FeatureDict) (window_length : Int)
    (feature_parts : List Str) : Except PyError FeatureDict :=
  match feature_parts with
  | ts_kind :: feature_name :: _ =>
    let d1 := ensure_kind (ensure_window feature_dictionary window_length)
      window_length ts_kind
    if catalog feature_name = false then .error .valueError
    else
      match get_config_from_string feature_parts with
      | some config =>
        match lookup3 d1 window_length ts_kind feature_name with
        | some (some configs) =>
          if config ∈ configs then .ok d1
          else .ok (set_calc d1 window_length ts_kind feature_name
            (some (configs ++ [config])))
        | some none => .error .typeError
        | none => .ok (set_calc d1 window_length ts_kind feature_name
            (some [config]))
      | none => .ok (set_calc d1 window_length ts_kind feature_name none)
  | _ => .error .indexError

/-- A sequence of `update_feature_dictionary` calls starting from the
empty dictionary, each call a window length with feature parts. -/
def applyUpdates (catalog : Str → Bool) (calls : List (Int × List Str)) :
    Except PyError FeatureDict :=
  calls.foldlM (fun d c => update_feature_dictionary catalog d c.1 c.2) []

/-- The configurations submitted for one (window, column, calculator) key
across a call sequence, in call order. -/
def configsFor (calls : List (Int × List Str)) (w : Int) (kind fname : Str) :
    List Config :=
  calls.filterMap (fun c =>
    if c.1 = w ∧ c.2.headD [] = kind ∧ c.2.getD 1 [] = fname then
      some (c.2.drop 2)
    else none)

/-- One loop iteration of `derive_features_dictionaries`
(feature_dynamics_utils.py, lines 164-182): parse the fts and fd parts of
a full feature name and update both mappings, keyed by the window length
of the fts parse. -/
def derive_step (catalog : Str → Bool) (maps : FeatureDict × FeatureDict)
    (full_feature_name : Str) : Except PyError (FeatureDict × FeatureDict) := do
  let fts_information ← parse_feature_timeseries_parts full_feature_name
  let fts_mapping ← update_feature_dictionary catalog maps.1
    fts_information.window_length fts_information.fts_parts
  let fd_parts ← parse_feature_dynamics_parts full_feature_name
  let fd_mapping ← update_feature_dictionary catalog maps.2
    fts_information.window_length fd_parts
  pure (fts_mapping, fd_mapping)

/-- Embedding of `derive_features_dictionaries`
(feature_dynamics_utils.py, lines 144-184): fold both parses and both
dictionary updates over the feature names.  (The `isinstance(..., str)`
check is vacuous here since names are strings by type.) -/
def derive_features_dictionaries (catalog : Str → Bool)
    (feature_names : List Str) : Except PyError (FeatureDict × FeatureDict) :=
  feature_names.foldlM (derive_step catalog) ([], [])

/-- No occurrence of `sep` anywhere in `s`: no suffix of `s` has `sep` as
a prefix. -/
def NoOcc (sep s : Str) : Prop :=
  ∀ i : Nat, sep.isPrefixOf (s.drop i) = false

/-- A canonical name segment: non-empty, free of the separator characters
`'|'` and `'@'`, containing no `"__"` even when followed by another
underscore (so it neither contains `"__"` nor ends in `'_'`). -/
def PartOk (p : Str) : Prop :=
  p ≠ [] ∧ containsSeq uu (p ++ ['_']) = false ∧ '|' ∉ p ∧ '@' ∉ p

instance (p : Str) : Decidable (PartOk p) := by
  unfold PartOk
  infer_instance

/-- Segments joined by a separator (`sep.join`-style interleaving); the
double-underscore join of a canonical stage-1 name. -/
def joinParts (sep : Str) : List Str → Str
  | [] => []
  | [p] => p
  | p :: q :: ps => p ++ sep ++ joinParts sep (q :: ps)

theorem mem_pdUniqueAux {α : Type} [DecidableEq α] :
    ∀ (l acc : List α) (a : α), a ∈ pdUniqueAux acc l ↔ a ∈ acc ∨ a ∈ l := by
  intro l
  induction l with
  | nil => intro acc a; simp [pdUniqueAux]
  | cons x xs ih =>
    intro acc a
    by_cases hx : x ∈ acc
    · rw [pdUniqueAux, if_pos hx, ih]
      constructor
      · rintro (h | h)
        · exact Or.inl h
        · exact Or.inr (List.mem_cons_of_mem _ h)
      · rintro (h | h)
        · exact Or.inl h
        · rcases List.mem_cons.1 h with h | h
          · exact Or.inl (h ▸ hx)
          · exact Or.inr h
    · rw [pdUniqueAux, if_neg hx, ih]
      simp only [List.mem_append, List.mem_singleton, List.mem_cons]
      tauto

theorem mem_pdUnique {α : Type} [DecidableEq α] (l : List α) (a : α) :
    a ∈ pdUnique l ↔ a ∈ l := by
  simp [pdUnique, mem_pdUniqueAux]

theorem nodup_pdUniqueAux {α : Type} [DecidableEq α] :
    ∀ (l acc : List α), acc.Nodup → (pdUniqueAux acc l).Nodup := by
  intro l
  induction l with
  | nil => intro acc h; simpa [pdUniqueAux] using h
  | cons x xs ih =>
    intro acc h
    by_cases hx : x ∈ acc
    · rw [pdUniqueAux, if_pos hx]; exact ih acc h
    · rw [pdUniqueAux, if_neg hx]
      refine ih (acc ++ [x]) ?_
      simp [List.nodup_append, h, hx]

theorem nodup_pdUnique {α : Type} [DecidableEq α] (l : List α) :
    (pdUnique l).Nodup :=
  nodup_pdUniqueAux l [] List.nodup_nil

example : pySplit uu ['a', '_', '_', 'b'] = [['a'], ['b']] := by decide

example :
    clean_feature_timeseries_name
      "temperature__mean__lag_1".toList 5
      = "temperature||mean|lag_1@window_5".toList := by decide

example :
    parse_feature_timeseries_parts "a||b|c@window_3__d__e".toList
      = .ok ⟨3, [['a'], ['b'], ['c']]⟩ := by decide

example :
    parse_feature_dynamics_parts "a||b|c@window_3__d__e".toList
      = .ok ["a||b|c@window_3".toList, ['d'], ['e']] := by decide

/-- C7: `clean_feature_timeseries_name` replaces the first
double-underscore of `"temperature__mean__lag_1"` with `"||"`, the
remaining one with `"|"`, and appends `"@window_5"`, giving exactly
`"temperature||mean|lag_1@window_5"`. -/
theorem claim_C7_encode_example :
    clean_feature_timeseries_name "temperature__mean__lag_1".toList 5
      = "temperature||mean|lag_1@window_5".toList := by decide

/-- C8: decoding `"a||b|c@window_3__d__e"` yields fts parts
`["a","b","c"]` with window length `3`, and fd parts
`["a||b|c@window_3","d","e"]`. -/
theorem claim_C8_decode_example :
    parse_feature_timeseries_parts "a||b|c@window_3__d__e".toList
        = .ok ⟨3, [['a'], ['b'], ['c']]⟩
    ∧ parse_feature_dynamics_parts "a||b|c@window_3__d__e".toList
        = .ok ["a||b|c@window_3".toList, ['d'], ['e']] := by
  exact ⟨by decide, by decide⟩

/-- C10: the decoder accepts a negative trailing window tag: on
`"a||b@window_-3__d"` it succeeds and returns window length `-3` with fts
parts `["a","b"]`; non-positive window lengths are not rejected. -/
theorem claim_C10_negative_window :
    parse_feature_timeseries_parts "a||b@window_-3__d".toList
      = .ok ⟨-3, [['a'], ['b']]⟩ := by decide

/-- C4 counterexample: the last fts token of `"a||b@5window_"` is
`"5window_"`, which is not of the form `window_<integer>`, yet
`parse_feature_timeseries_parts` succeeds on it with window length `5`:
the code only requires `"window_"` to occur as a substring and the token
with all `"window_"` occurrences deleted to parse as an integer. -/
theorem claim_C4_counterexample :
    (fts_tokens "a||b@5window_".toList).getLastD [] = "5window_".toList
    ∧ spec_window_token "5window_".toList = false
    ∧ parse_feature_timeseries_parts "a||b@5window_".toList
        = .ok ⟨5, [['a'], ['b']]⟩ := by
  exact ⟨by decide, by decide, by decide⟩

/-- C4 (amended): whenever the last fts token does not contain
`"window_"` as a substring — in particular for every name without any
`"window_"` occurrence in its fts portion — the parse fails with
`ValueError`. -/
theorem claim_C4_missing_window_tag (full_feature_name : Str)
    (h : containsSeq windowTok ((fts_tokens full_feature_name).getLastD [])
      = false) :
    parse_feature_timeseries_parts full_feature_name = .error .valueError := by
  rw [parse_feature_timeseries_parts]
  simp only [h]
  rfl

/-- C4 witness: `"a__b"` has fts tokens `["a"]`, whose last token lacks
`"window_"`, and parsing indeed fails with `ValueError`. -/
theorem claim_C4_missing_window_tag_witness :
    containsSeq windowTok ((fts_tokens "a__b".toList).getLastD []) = false
    ∧ parse_feature_timeseries_parts "a__b".toList = .error .valueError :=
  ⟨by decide, claim_C4_missing_window_tag _ (by decide)⟩

/-- C5 counterexample: the encoder does not reject a window length of 0;
it silently produces a name tagged `@window_0`. -/
theorem claim_C5_counterexample :
    clean_feature_timeseries_name "a__b".toList 0 = "a||b@window_0".toList := by
  decide

/-- C5 (amended): `clean_feature_timeseries_name` performs no validation
of the window length: for every input name, encoding with window length 0
returns a name ending in the `@window_0` tag rather than failing. -/
theorem claim_C5_zero_window_tagged (name : Str) :
    List.IsSuffix (atTok ++ windowTok ++ ['0'])
      (clean_feature_timeseries_name name 0) := by
  refine ⟨pyReplace uu bar (replaceFirst uu barbar name), ?_⟩
  have h0 : intStr 0 = ['0'] := by decide
  simp [clean_feature_timeseries_name, h0]

/-- C2: constructing the windowed view with `split_size` equal to 0, -20,
the non-integer 1.5, or `L + 1` where `L` is the length of the shortest
series present, fails with `ValueError` at construction time in every
case. -/
theorem claim_C2_split_size_validation (data : List (List Int)) (L : Nat)
    (hmem : ∃ s ∈ data, s.length = L) (_hmin : ∀ s ∈ data, L ≤ s.length) :
    mkIterableSplitTsData data (.pyInt 0) = .error .valueError
    ∧ mkIterableSplitTsData data (.pyInt (-20)) = .error .valueError
    ∧ mkIterableSplitTsData data (.pyFloat (some (3 / 2)))
        = .error .valueError
    ∧ mkIterableSplitTsData data (.pyInt ((L : Int) + 1))
        = .error .valueError := by
  refine ⟨?_, ?_, ?_, ?_⟩
  · simp [mkIterableSplitTsData, PyNumber.asInteger]
  · simp [mkIterableSplitTsData, PyNumber.asInteger]
  · have hden : ((3 / 2 : ℚ)).den = 2 := by norm_num
    simp [mkIterableSplitTsData, PyNumber.asInteger, hden]
  · obtain ⟨s, hs, hsl⟩ := hmem
    have hpos : ¬ ((L : Int) + 1 ≤ 0) := by omega
    have hany :
        (data.any (fun t => decide (t.length < ((L : Int) + 1).toNat))) = true := by
      refine List.any_eq_true.2 ⟨s, hs, ?_⟩
      simp only [decide_eq_true_eq]
      omega
    rw [mkIterableSplitTsData]
    simp only [PyNumber.asInteger]
    rw [if_neg hpos, if_pos hany]

/-- C2 witness: for the single series `[10, 11, 12]` of length 3, all
four bad split sizes are rejected with `ValueError`. -/
theorem claim_C2_split_size_validation_witness :
    mkIterableSplitTsData [[10, 11, 12]] (.pyInt 0) = .error .valueError
    ∧ mkIterableSplitTsData [[10, 11, 12]] (.pyInt (-20)) = .error .valueError
    ∧ mkIterableSplitTsData [[10, 11, 12]] (.pyFloat (some (3 / 2)))
        = .error .valueError
    ∧ mkIterableSplitTsData [[10, 11, 12]] (.pyInt ((3 : Nat) + 1))
        = .error .valueError :=
  claim_C2_split_size_validation [[10, 11, 12]] 3 (by decide) (by decide)

/-- C3: if some window of some id has a missing value for a feature name,
the stage-1 completeness filter removes every row bearing that feature
name; feature names with no missing value keep all their rows. -/
theorem claim_C3_stage1_filter (rows : List FtsRow) (k : Str) :
    ((∃ r ∈ rows, r.kind = k ∧ r.value = none) →
      ∀ r ∈ stage1_completeness_filter rows, r.kind ≠ k)
    ∧ ((∀ r ∈ rows, r.kind = k → r.value ≠ none) →
      ∀ r ∈ rows, r.kind = k → r ∈ stage1_completeness_filter rows) := by
  constructor
  · rintro ⟨r0, hr0, hk0, hv0⟩ r hr hrk
    have hmem := List.mem_filter.1 hr
    have hkt : k ∈ stage1_nan_target_list rows := by
      rw [stage1_nan_target_list, mem_pdUnique]
      exact List.mem_map.2 ⟨r0, List.mem_filter.2 ⟨hr0, by simp [hv0]⟩, hk0⟩
    have hnot := of_decide_eq_true hmem.2
    exact hnot (by rw [hrk]; exact hkt)
  · intro hall r hr hrk
    refine List.mem_filter.2 ⟨hr, decide_eq_true ?_⟩
    intro hmem
    rw [stage1_nan_target_list, mem_pdUnique] at hmem
    obtain ⟨r1, hr1, hk1⟩ := List.mem_map.1 hmem
    have h1 := List.mem_filter.1 hr1
    refine hall r1 h1.1 (hk1.trans hrk) ?_
    have h2 := h1.2
    rwa [Option.isNone_iff_eq_none] at h2

/-- C3 witness: in a sample where feature `"f"` is missing for one window
of id 1 and feature `"g"` is complete, every `"f"` row is dropped for all
ids and every `"g"` row survives. -/
theorem claim_C3_stage1_filter_witness :
    ((∀ r ∈ stage1_completeness_filter
        [⟨(1, 0), ['f'], none⟩, ⟨(1, 1), ['f'], some 1⟩,
         ⟨(2, 0), ['f'], some 2⟩, ⟨(2, 0), ['g'], some 3⟩],
      r.kind ≠ ['f'])
    ∧ (∀ r ∈ ([⟨(1, 0), ['f'], none⟩, ⟨(1, 1), ['f'], some 1⟩,
         ⟨(2, 0), ['f'], some 2⟩, ⟨(2, 0), ['g'], some 3⟩] : List FtsRow),
        r.kind = ['g'] → r ∈ stage1_completeness_filter
          [⟨(1, 0), ['f'], none⟩, ⟨(1, 1), ['f'], some 1⟩,
           ⟨(2, 0), ['f'], some 2⟩, ⟨(2, 0), ['g'], some 3⟩])) :=
  ⟨(claim_C3_stage1_filter _ ['f']).1 (by decide),
   (claim_C3_stage1_filter _ ['g']).2 (by decide)⟩

theorem exc_ok_bind {ε α β : Type} (a : α) (f : α → Except ε β) :
    (Except.ok a >>= f) = f a := rfl

theorem exc_error_bind {ε α β : Type} (e : ε) (f : α → Except ε β) :
    (Except.error e >>= f : Except ε β) = Except.error e := rfl

theorem alookup_aset_self {α β : Type} [DecidableEq α] (k : α) (v : β) :
    ∀ l : List (α × β), alookup k (aset k v l) = some v := by
  intro l
  induction l with
  | nil => simp [aset, alookup]
  | cons p rest ih =>
    obtain ⟨k', v'⟩ := p
    by_cases h : k = k'
    · simp [aset, alookup, h]
    · simp [aset, alookup, h, ih]

theorem alookup_aset_ne {α β : Type} [DecidableEq α] {k k' : α} (v : β)
    (h : k' ≠ k) :
    ∀ l : List (α × β), alookup k' (aset k v l) = alookup k' l := by
  intro l
  induction l with
  | nil => simp [aset, alookup, h]
  | cons p rest ih =>
    obtain ⟨a, b⟩ := p
    by_cases hka : k = a
    · subst hka
      simp [aset, alookup, h]
    · by_cases hk'a : k' = a
      · simp [aset, alookup, hka, hk'a]
      · simp [aset, alookup, hka, hk'a, ih]

theorem lookup3_ensure_window (d : FeatureDict) (w0 w : Int) (k f : Str) :
    lookup3 (ensure_window d w0) w k f = lookup3 d w k f := by
  rw [ensure_window]
  cases hw : alookup w0 d with
  | some km => rfl
  | none =>
    by_cases h : w = w0
    · subst h
      rw [lookup3, lookup3, alookup_aset_self, hw]
      rfl
    · rw [lookup3, lookup3, alookup_aset_ne _ h]

theorem lookup3_ensure_kind (d : FeatureDict) (w0 : Int) (k0 : Str)
    (w : Int) (k f : Str) :
    lookup3 (ensure_kind d w0 k0) w k f = lookup3 d w k f := by
  rw [ensure_kind]
  cases hk : alookup k0 ((alookup w0 d).getD []) with
  | some cm => rfl
  | none =>
    by_cases hww : w = w0
    · subst hww
      rw [lookup3, lookup3, alookup_aset_self]
      simp only [Option.getD_some]
      by_cases hkk : k = k0
      · subst hkk
        rw [alookup_aset_self, hk]
        rfl
      · rw [alookup_aset_ne _ hkk]
    · rw [lookup3, lookup3, alookup_aset_ne _ hww]

theorem lookup3_set_calc_self (d : FeatureDict) (w0 : Int) (k0 f0 : Str)
    (v : Option (List Config)) :
    lookup3 (set_calc d w0 k0 f0 v) w0 k0 f0 = some v := by
  rw [set_calc, lookup3, alookup_aset_self]
  simp only [Option.getD_some]
  rw [alookup_aset_self]
  simp only [Option.getD_some]
  rw [alookup_aset_self]

theorem lookup3_set_calc_ne (d : FeatureDict) (w0 : Int) (k0 f0 : Str)
    (v : Option (List Config)) (w : Int) (k f : Str)
    (h : ¬ (w = w0 ∧ k = k0 ∧ f = f0)) :
    lookup3 (set_calc d w0 k0 f0 v) w k f = lookup3 d w k f := by
  rw [set_calc, lookup3, lookup3]
  by_cases hw : w = w0
  · subst hw
    rw [alookup_aset_self]
    simp only [Option.getD_some]
    by_cases hk : k = k0
    · subst hk
      rw [alookup_aset_self]
      simp only [Option.getD_some]
      have hf : f ≠ f0 := by tauto
      rw [alookup_aset_ne _ hf]
    · rw [alookup_aset_ne _ hk]
  · rw [alookup_aset_ne _ hw]

theorem update_unknown_error (catalog : Str → Bool) (d : FeatureDict)
    (w : Int) (parts : List Str)
    (h : catalog (parts.getD 1 []) = false) :
    ∃ e, update_feature_dictionary catalog d w parts = .error e := by
  match parts with
  | [] => exact ⟨.indexError, rfl⟩
  | [a] => exact ⟨.indexError, rfl⟩
  | a :: b :: t =>
    refine ⟨.valueError, ?_⟩
    have hb : catalog b = false := by simpa using h
    simp [update_feature_dictionary, hb]

theorem derive_error_of_unknown (catalog : Str → Bool) :
    ∀ (feature_names : List Str) (maps : FeatureDict × FeatureDict)
      (full : Str) (info : FtsInfo),
      full ∈ feature_names →
      parse_feature_timeseries_parts full = .ok info →
      catalog (info.fts_parts.getD 1 []) = false →
      ∃ e, feature_names.foldlM (derive_step catalog) maps = .error e := by
  intro feature_names
  induction feature_names with
  | nil => intro maps full info hmem; simp at hmem
  | cons n ns ih =>
    intro maps full info hmem hparse hcat
    rw [List.foldlM_cons]
    rcases List.mem_cons.1 hmem with heq | hmem'
    · subst heq
      obtain ⟨e0, he0⟩ :=
        update_unknown_error catalog maps.1 info.window_length
          info.fts_parts hcat
      have hstep : derive_step catalog maps full = .error e0 := by
        rw [derive_step, hparse, exc_ok_bind, he0, exc_error_bind]
      rw [hstep, exc_error_bind]
      exact ⟨e0, rfl⟩
    · cases hrun : derive_step catalog maps n with
      | error e => exact ⟨e, rfl⟩
      | ok maps' =>
        obtain ⟨e, he⟩ := ih maps' full info hmem' hparse hcat
        exact ⟨e, he⟩

/-- C9: a decoded calculator name absent from the external catalog makes
`update_feature_dictionary` raise `ValueError` before any entry for that
calculator is stored, and any feature name list containing a name that
decodes to an unknown calculator makes `derive_features_dictionaries`
fail while building the dictionaries. -/
theorem claim_C9_unknown_calculator (catalog : Str → Bool) :
    (∀ (d : FeatureDict) (w : Int) (ts_kind feature_name : Str)
      (rest : List Str), catalog feature_name = false →
      update_feature_dictionary catalog d w (ts_kind :: feature_name :: rest)
        = .error .valueError)
    ∧ (∀ (feature_names : List Str) (full : Str) (info : FtsInfo),
      full ∈ feature_names →
      parse_feature_timeseries_parts full = .ok info →
      catalog (info.fts_parts.getD 1 []) = false →
      ∃ e, derive_features_dictionaries catalog feature_names = .error e) := by
  constructor
  · intro d w ts_kind feature_name rest h
    simp [update_feature_dictionary, h]
  · intro feature_names full info hmem hparse hcat
    exact derive_error_of_unknown catalog feature_names ([], [])
      full info hmem hparse hcat

/-- C9 witness: with an empty catalog, updating with calculator `"f"`
fails with `ValueError`, and deriving the dictionaries for
`"x||f@window_3__g"` fails. -/
theorem claim_C9_unknown_calculator_witness :
    update_feature_dictionary (fun _ => false) [] 3 [['x'], ['f']]
      = .error .valueError
    ∧ ∃ e, derive_features_dictionaries (fun _ => false)
        ["x||f@window_3__g".toList] = .error e :=
  ⟨(claim_C9_unknown_calculator (fun _ => false)).1 [] 3 ['x'] ['f'] [] rfl,
   (claim_C9_unknown_calculator (fun _ => false)).2 _ "x||f@window_3__g".toList
     ⟨3, [['x'], ['f']]⟩ (by decide) (by decide) rfl⟩

/-- C6 counterexample: a call with parameters followed by a call without
parameters for the same calculator overwrites the accumulated parameter
list with `None`: the previously accumulated parameter set `[["p"]]` for
calculator `"f"` is lost. -/
theorem claim_C6_counterexample :
    update_feature_dictionary (fun _ => true) [] 3 [['x'], ['f'], ['p']]
      = .ok [(3, [(['x'], [(['f'], some [[['p']]])])])]
    ∧ update_feature_dictionary (fun _ => true)
        [(3, [(['x'], [(['f'], some [[['p']]])])])] 3 [['x'], ['f']]
      = .ok [(3, [(['x'], [(['f'], none)])])] :=
  ⟨by decide, by decide⟩

theorem pdUniqueAux_append_singleton {α : Type} [DecidableEq α] (c : α) :
    ∀ (l acc : List α),
      pdUniqueAux acc (l ++ [c])
        = if c ∈ acc ∨ c ∈ l then pdUniqueAux acc l
          else pdUniqueAux acc l ++ [c] := by
  intro l
  induction l with
  | nil =>
    intro acc
    by_cases h : c ∈ acc
    · simp [pdUniqueAux, h]
    · simp [pdUniqueAux, h]
  | cons x xs ih =>
    intro acc
    by_cases hx : x ∈ acc
    · have hcond : (c ∈ acc ∨ c ∈ x :: xs) ↔ (c ∈ acc ∨ c ∈ xs) := by
        have hcx : c = x → c ∈ acc := fun h => h ▸ hx
        simp only [List.mem_cons]
        tauto
      rw [List.cons_append, pdUniqueAux, if_pos hx, ih acc, pdUniqueAux,
        if_pos hx]
      simp only [hcond]
    · have hcond : (c ∈ acc ++ [x] ∨ c ∈ xs) ↔ (c ∈ acc ∨ c ∈ x :: xs) := by
        simp only [List.mem_append, List.mem_singleton, List.mem_cons]
        tauto
      rw [List.cons_append, pdUniqueAux, if_neg hx, ih (acc ++ [x]),
        pdUniqueAux, if_neg hx]
      simp only [hcond]

theorem pdUnique_append_singleton {α : Type} [DecidableEq α] (l : List α)
    (c : α) :
    pdUnique (l ++ [c]) = if c ∈ l then pdUnique l else pdUnique l ++ [c] := by
  rw [pdUnique, pdUnique, pdUniqueAux_append_singleton]
  simp

theorem configsFor_append_singleton (calls : List (Int × List Str))
    (c : Int × List Str) (w : Int) (k f : Str) :
    configsFor (calls ++ [c]) w k f
      = configsFor calls w k f
        ++ (if c.1 = w ∧ c.2.headD [] = k ∧ c.2.getD 1 [] = f
            then [c.2.drop 2] else []) := by
  rw [configsFor, configsFor, List.filterMap_append]
  congr 1
  by_cases h : c.1 = w ∧ c.2.headD [] = k ∧ c.2.getD 1 [] = f
  · rw [if_pos h, List.filterMap_cons_some (by rw [if_pos h])]
    simp
  · rw [if_neg h, List.filterMap_cons_none (by rw [if_neg h])]
    simp

theorem applyUpdates_snoc (catalog : Str → Bool)
    (calls : List (Int × List Str)) (c : Int × List Str) :
    applyUpdates catalog (calls ++ [c])
      = applyUpdates catalog calls >>= fun d =>
          update_feature_dictionary catalog d c.1 c.2 := by
  rw [applyUpdates, applyUpdates, List.foldlM_append]
  congr 1
  funext d
  rw [List.foldlM_cons]
  simp

/-- C6 (amended): provided every call carries at least one parameter
segment (so its configuration is non-null) and names a calculator in the
catalog, every sequence of `update_feature_dictionary` calls succeeds and
yields, for each window length, column and calculator, exactly the
first-occurrence deduplication of the submitted parameter sets: each
distinct set appears exactly once, in insertion order, and no previously
accumulated set is lost. -/
theorem claim_C6_accumulation (catalog : Str → Bool)
    (calls : List (Int × List Str))
    (hgood : ∀ c ∈ calls, 3 ≤ c.2.length ∧ catalog (c.2.getD 1 []) = true) :
    ∃ d, applyUpdates catalog calls = .ok d
      ∧ ∀ (w : Int) (kind fname : Str),
          (lookup3 d w kind fname
            = if configsFor calls w kind fname = [] then none
              else some (some (pdUnique (configsFor calls w kind fname))))
          ∧ (pdUnique (configsFor calls w kind fname)).Nodup
          ∧ (∀ cfg, cfg ∈ pdUnique (configsFor calls w kind fname)
              ↔ cfg ∈ configsFor calls w kind fname) := by
  revert hgood
  induction calls using List.reverseRecOn with
  | nil =>
    intro _hgood
    refine ⟨[], rfl, ?_⟩
    intro w kind fname
    refine ⟨?_, nodup_pdUnique _, fun cfg => mem_pdUnique _ cfg⟩
    simp [lookup3, alookup, configsFor]
  | append_singleton calls c ih =>
    intro hgood
    have hc := hgood c (by simp)
    have hcalls : ∀ x ∈ calls, 3 ≤ x.2.length ∧ catalog (x.2.getD 1 []) = true :=
      fun x hx => hgood x (by simp [hx])
    obtain ⟨d, hd, hinv⟩ := ih hcalls
    obtain ⟨w0, parts⟩ := c
    match parts, hc with
    | k0 :: f0 :: ps, hc =>
    have hps : ps ≠ [] := by
      have := hc.1
      simp only [List.length_cons] at this
      intro h
      rw [h] at this
      simp at this
    have hcat0 : catalog f0 = true := by simpa using hc.2
    have hcfg : get_config_from_string (k0 :: f0 :: ps) = some ps := by
      rw [get_config_from_string, if_neg]
      · simp
      · simp only [List.length_cons]
        have : 0 < ps.length := List.length_pos.2 hps
        omega
    have hkey := (hinv w0 k0 f0).1
    have hl3 : lookup3 (ensure_kind (ensure_window d w0) w0 k0) w0 k0 f0
        = lookup3 d w0 k0 f0 := by
      rw [lookup3_ensure_kind, lookup3_ensure_window]
    rw [applyUpdates_snoc, hd, exc_ok_bind]
    have hcondpos :
        ((w0, k0 :: f0 :: ps).1 = w0
          ∧ (w0, k0 :: f0 :: ps).2.headD [] = k0
          ∧ (w0, k0 :: f0 :: ps).2.getD 1 [] = f0) := by simp
    have hnewkey :
        configsFor (calls ++ [(w0, k0 :: f0 :: ps)]) w0 k0 f0
          = configsFor calls w0 k0 f0 ++ [ps] := by
      rw [configsFor_append_singleton, if_pos hcondpos]
      simp
    have hnewother : ∀ (w : Int) (kind fname : Str),
        ¬ (w = w0 ∧ kind = k0 ∧ fname = f0) →
        configsFor (calls ++ [(w0, k0 :: f0 :: ps)]) w kind fname
          = configsFor calls w kind fname := by
      intro w kind fname hne
      rw [configsFor_append_singleton, if_neg, List.append_nil]
      rintro ⟨h1, h2, h3⟩
      simp only [List.headD_cons, List.getD_cons_succ, List.getD_cons_zero] at h2 h3
      exact hne ⟨h1.symm, h2.symm, h3.symm⟩
    by_cases hempty : configsFor calls w0 k0 f0 = []
    · -- no earlier configuration for this key: a fresh singleton list
      have hl3n : lookup3 (ensure_kind (ensure_window d w0) w0 k0) w0 k0 f0
          = none := by rw [hl3, hkey, if_pos hempty]
      have hupd : update_feature_dictionary catalog d w0 (k0 :: f0 :: ps)
          = .ok (set_calc (ensure_kind (ensure_window d w0) w0 k0)
              w0 k0 f0 (some [ps])) := by
        rw [update_feature_dictionary]
        rw [if_neg (by simp [hcat0])]
        rw [hcfg, hl3n]
      rw [hupd]
      refine ⟨_, rfl, ?_⟩
      intro w kind fname
      refine ⟨?_, nodup_pdUnique _, fun cfg => mem_pdUnique _ cfg⟩
      by_cases hk : w = w0 ∧ kind = k0 ∧ fname = f0
      · obtain ⟨h1, h2, h3⟩ := hk
        subst h1; subst h2; subst h3
        rw [lookup3_set_calc_self, hnewkey, hempty]
        rw [if_neg (by simp)]
        simp [pdUnique, pdUniqueAux]
      · rw [lookup3_set_calc_ne _ _ _ _ _ _ _ _ hk, lookup3_ensure_kind,
          lookup3_ensure_window, hnewother w kind fname hk]
        exact (hinv w kind fname).1
    · -- earlier configurations exist for this key
      have hl3s : lookup3 (ensure_kind (ensure_window d w0) w0 k0) w0 k0 f0
          = some (some (pdUnique (configsFor calls w0 k0 f0))) := by
        rw [hl3, hkey, if_neg hempty]
      by_cases hmem : ps ∈ pdUnique (configsFor calls w0 k0 f0)
      · -- the configuration was already accumulated: no change
        have hupd : update_feature_dictionary catalog d w0 (k0 :: f0 :: ps)
            = .ok (ensure_kind (ensure_window d w0) w0 k0) := by
          rw [update_feature_dictionary]
          rw [if_neg (by simp [hcat0])]
          rw [hcfg, hl3s]
          exact if_pos hmem
        rw [hupd]
        refine ⟨_, rfl, ?_⟩
        intro w kind fname
        refine ⟨?_, nodup_pdUnique _, fun cfg => mem_pdUnique _ cfg⟩
        by_cases hk : w = w0 ∧ kind = k0 ∧ fname = f0
        · obtain ⟨h1, h2, h3⟩ := hk
          subst h1; subst h2; subst h3
          rw [lookup3_ensure_kind, lookup3_ensure_window, hkey,
            if_neg hempty, hnewkey]
          rw [if_neg (by simp), pdUnique_append_singleton,
            if_pos ((mem_pdUnique _ ps).1 hmem)]
        · rw [lookup3_ensure_kind, lookup3_ensure_window,
            hnewother w kind fname hk]
          exact (hinv w kind fname).1
      · -- a new distinct configuration is appended
        have hupd : update_feature_dictionary catalog d w0 (k0 :: f0 :: ps)
            = .ok (set_calc (ensure_kind (ensure_window d w0) w0 k0) w0 k0 f0
                (some (pdUnique (configsFor calls w0 k0 f0) ++ [ps]))) := by
          rw [update_feature_dictionary]
          rw [if_neg (by simp [hcat0])]
          rw [hcfg, hl3s]
          exact if_neg hmem
        rw [hupd]
        refine ⟨_, rfl, ?_⟩
        intro w kind fname
        refine ⟨?_, nodup_pdUnique _, fun cfg => mem_pdUnique _ cfg⟩
        by_cases hk : w = w0 ∧ kind = k0 ∧ fname = f0
        · obtain ⟨h1, h2, h3⟩ := hk
          subst h1; subst h2; subst h3
          rw [lookup3_set_calc_self, hnewkey]
          rw [if_neg (by simp), pdUnique_append_singleton,
            if_neg (fun hin => hmem ((mem_pdUnique _ ps).2 hin))]
        · rw [lookup3_set_calc_ne _ _ _ _ _ _ _ _ hk, lookup3_ensure_kind,
            lookup3_ensure_window, hnewother w kind fname hk]
          exact (hinv w kind fname).1

/-- C6 witness: three configuration-carrying calls on one calculator,
with the second repeating the first set: the stored parameter list is the
ordered deduplication `[["p"], ["q"]]`. -/
theorem claim_C6_accumulation_witness :
    ∃ d, applyUpdates (fun _ => true)
        [(3, [['x'], ['f'], ['p']]), (3, [['x'], ['f'], ['p']]),
         (3, [['x'], ['f'], ['q']])] = .ok d
      ∧ ∀ (w : Int) (kind fname : Str),
          (lookup3 d w kind fname
            = if configsFor [(3, [['x'], ['f'], ['p']]),
                (3, [['x'], ['f'], ['p']]), (3, [['x'], ['f'], ['q']])]
                w kind fname = [] then none
              else some (some (pdUnique (configsFor
                [(3, [['x'], ['f'], ['p']]), (3, [['x'], ['f'], ['p']]),
                 (3, [['x'], ['f'], ['q']])] w kind fname))))
          ∧ (pdUnique (configsFor [(3, [['x'], ['f'], ['p']]),
              (3, [['x'], ['f'], ['p']]), (3, [['x'], ['f'], ['q']])]
              w kind fname)).Nodup
          ∧ (∀ cfg, cfg ∈ pdUnique (configsFor [(3, [['x'], ['f'], ['p']]),
              (3, [['x'], ['f'], ['p']]), (3, [['x'], ['f'], ['q']])]
              w kind fname)
            ↔ cfg ∈ configsFor [(3, [['x'], ['f'], ['p']]),
                (3, [['x'], ['f'], ['p']]), (3, [['x'], ['f'], ['q']])]
                w kind fname) :=
  claim_C6_accumulation (fun _ => true)
    [(3, [['x'], ['f'], ['p']]), (3, [['x'], ['f'], ['p']]),
     (3, [['x'], ['f'], ['q']])] (by decide)

theorem ipo_cons (a b : Char) (as bs : Str) :
    (a :: as).isPrefixOf (b :: bs) = (a == b && as.isPrefixOf bs) := rfl

theorem ipo_append_self (sep t : Str) : sep.isPrefixOf (sep ++ t) = true :=
  List.isPrefixOf_iff_prefix.2 (List.prefix_append sep t)

theorem replaceAllAux_skip_drop (o : Char) (os new : Str) :
    ∀ (s : Str) (k : Nat),
      replaceAllAux o os new k s = replaceAllAux o os new 0 (s.drop k) := by
  intro s
  induction s with
  | nil => intro k; cases k <;> rfl
  | cons c rest ih =>
    intro k
    cases k with
    | zero => rfl
    | succ k =>
      rw [List.drop_succ_cons]
      exact ih k

theorem splitOnAux_skip_drop (o : Char) (os : Str) :
    ∀ (s : Str) (k : Nat),
      splitOnAux o os k s = splitOnAux o os 0 (s.drop k) := by
  intro s
  induction s with
  | nil => intro k; cases k <;> rfl
  | cons c rest ih =>
    intro k
    cases k with
    | zero => rfl
    | succ k =>
      rw [List.drop_succ_cons]
      exact ih k

theorem replaceAll_skip (o : Char) (os new : Str) :
    ∀ (p rest : Str),
      (∀ i, i < p.length → (o :: os).isPrefixOf ((p ++ rest).drop i) = false) →
      replaceAllAux o os new 0 (p ++ rest)
        = p ++ replaceAllAux o os new 0 rest := by
  intro p
  induction p with
  | nil => intro rest _; rfl
  | cons c p' ih =>
    intro rest h
    have h0 : (o :: os).isPrefixOf (c :: (p' ++ rest)) = false := by
      have := h 0 (by simp)
      simpa using this
    simp only [List.cons_append, replaceAllAux, List.append_eq]
    rw [if_neg (by simp [h0])]
    rw [ih rest (fun i hi => by
      have := h (i + 1) (by simpa using Nat.succ_lt_succ hi)
      simpa using this)]

theorem splitOn_skip (o : Char) (os : Str) :
    ∀ (p rest : Str) (h' : Str) (t : List Str),
      splitOnAux o os 0 rest = h' :: t →
      (∀ i, i < p.length → (o :: os).isPrefixOf ((p ++ rest).drop i) = false) →
      splitOnAux o os 0 (p ++ rest) = (p ++ h') :: t := by
  intro p
  induction p with
  | nil => intro rest h' t hsplit _; simpa using hsplit
  | cons c p' ih =>
    intro rest h' t hsplit h
    have h0 : (o :: os).isPrefixOf (c :: (p' ++ rest)) = false := by
      have := h 0 (by simp)
      simpa using this
    simp only [List.cons_append, splitOnAux, List.append_eq]
    rw [if_neg (by simp [h0])]
    rw [ih rest h' t hsplit (fun i hi => by
      have := h (i + 1) (by simpa using Nat.succ_lt_succ hi)
      simpa using this)]

theorem replaceFirst_skip (o : Char) (os new : Str) :
    ∀ (p rest : Str),
      (∀ i, i < p.length → (o :: os).isPrefixOf ((p ++ rest).drop i) = false) →
      replaceFirst (o :: os) new (p ++ rest)
        = p ++ replaceFirst (o :: os) new rest := by
  intro p
  induction p with
  | nil => intro rest _; rfl
  | cons c p' ih =>
    intro rest h
    have h0 : (o :: os).isPrefixOf (c :: (p' ++ rest)) = false := by
      have := h 0 (by simp)
      simpa using this
    simp only [List.cons_append, replaceFirst, List.append_eq]
    rw [if_neg (by simp [h0])]
    rw [ih rest (fun i hi => by
      have := h (i + 1) (by simpa using Nat.succ_lt_succ hi)
      simpa using this)]

theorem replaceAll_step (o : Char) (os new rest : Str) :
    replaceAllAux o os new 0 ((o :: os) ++ rest)
      = new ++ replaceAllAux o os new 0 rest := by
  simp only [List.cons_append, replaceAllAux, List.append_eq]
  rw [if_pos (show (o :: os).isPrefixOf (o :: (os ++ rest)) = true from
    ipo_append_self (o :: os) rest)]
  rw [replaceAllAux_skip_drop, List.drop_left]

theorem splitOn_step (o : Char) (os rest : Str) :
    splitOnAux o os 0 ((o :: os) ++ rest) = [] :: splitOnAux o os 0 rest := by
  simp only [List.cons_append, splitOnAux, List.append_eq]
  rw [if_pos (show (o :: os).isPrefixOf (o :: (os ++ rest)) = true from
    ipo_append_self (o :: os) rest)]
  rw [splitOnAux_skip_drop, List.drop_left]

theorem replaceFirst_step (o : Char) (os new rest : Str) :
    replaceFirst (o :: os) new ((o :: os) ++ rest) = new ++ rest := by
  simp only [List.cons_append, replaceFirst, List.append_eq]
  rw [if_pos (show (o :: os).isPrefixOf (o :: (os ++ rest)) = true from
    ipo_append_self (o :: os) rest)]
  congr 1
  exact List.drop_left (o :: os) rest

theorem replaceAll_id (o : Char) (os new s : Str) (h : NoOcc (o :: os) s) :
    replaceAllAux o os new 0 s = s := by
  have := replaceAll_skip o os new s [] (fun i _ => by simpa using h i)
  simpa [replaceAllAux] using this

theorem splitOn_single (o : Char) (os s : Str) (h : NoOcc (o :: os) s) :
    splitOnAux o os 0 s = [s] := by
  have := splitOn_skip o os s [] [] [] rfl (fun i _ => by simpa using h i)
  simpa using this

theorem replaceFirst_id (o : Char) (os new s : Str) (h : NoOcc (o :: os) s) :
    replaceFirst (o :: os) new s = s := by
  have := replaceFirst_skip o os new s [] (fun i _ => by simpa using h i)
  simpa [replaceFirst] using this

theorem noOcc_append (o : Char) (os a b : Str)
    (h1 : ∀ i, i < a.length → (o :: os).isPrefixOf ((a ++ b).drop i) = false)
    (h2 : NoOcc (o :: os) b) : NoOcc (o :: os) (a ++ b) := by
  intro i
  by_cases hi : i < a.length
  · exact h1 i hi
  · rw [List.drop_append_eq_append_drop, List.drop_eq_nil_of_le (by omega)]
    simpa using h2 (i - a.length)

theorem noOcc_left_of_append (o : Char) (os a b : Str)
    (h : NoOcc (o :: os) (a ++ b)) : NoOcc (o :: os) a := by
  intro i
  cases htest : (o :: os).isPrefixOf (a.drop i) with
  | false => rfl
  | true =>
    exfalso
    have hpre : (o :: os) <+: a.drop i := List.isPrefixOf_iff_prefix.1 htest
    have hpre2 : (o :: os) <+: (a ++ b).drop i := by
      rw [List.drop_append_eq_append_drop]
      exact hpre.trans (List.prefix_append _ _)
    have hcon := h i
    rw [List.isPrefixOf_iff_prefix.2 hpre2] at hcon
    simp at hcon

theorem containsSeq_eq_false_iff (o : Char) (os : Str) :
    ∀ s : Str, containsSeq (o :: os) s = false ↔ NoOcc (o :: os) s := by
  intro s
  induction s with
  | nil =>
    constructor
    · intro _ i
      rw [List.drop_nil]
      rfl
    · intro _
      rfl
  | cons c rest ih =>
    rw [containsSeq, Bool.or_eq_false_iff]
    constructor
    · rintro ⟨hh, ht⟩ i
      cases i with
      | zero => simpa using hh
      | succ i =>
        rw [List.drop_succ_cons]
        exact (ih.1 ht) i
    · intro h
      exact ⟨by simpa using h 0, ih.2 (fun i => by simpa using h (i + 1))⟩

theorem skip_of_head_notMem (h : Char) (t : Str) :
    ∀ (p rest : Str), h ∉ p →
      ∀ i, i < p.length → (h :: t).isPrefixOf ((p ++ rest).drop i) = false := by
  intro p
  induction p with
  | nil => intro rest _ i hi; simp at hi
  | cons c p' ih =>
    intro rest hmem i hi
    cases i with
    | zero =>
      have hc : h ≠ c := fun he => hmem (he ▸ List.mem_cons_self c p')
      simp only [List.cons_append, List.drop_zero]
      rw [ipo_cons, beq_eq_false_iff_ne.2 hc, Bool.false_and]
    | succ i =>
      rw [List.cons_append, List.drop_succ_cons]
      exact ih rest (fun hm => hmem (List.mem_cons_of_mem c hm)) i
        (by simpa using hi)

theorem noOcc_of_head_notMem (h : Char) (t s : Str) (hmem : h ∉ s) :
    NoOcc (h :: t) s := by
  intro i
  cases hdrop : s.drop i with
  | nil => rfl
  | cons d l =>
    have hd : d ∈ s := List.mem_of_mem_drop (hdrop ▸ List.mem_cons_self d l)
    have hne : h ≠ d := fun he => hmem (he ▸ hd)
    rw [ipo_cons, beq_eq_false_iff_ne.2 hne, Bool.false_and]

theorem skip_of_doubled (x : Char) :
    ∀ (p rest : Str), containsSeq [x, x] (p ++ [x]) = false →
      ∀ i, i < p.length → ([x, x]).isPrefixOf ((p ++ rest).drop i) = false := by
  intro p
  induction p with
  | nil => intro rest _ i hi; simp at hi
  | cons c p' ih =>
    intro rest hcs i hi
    simp only [List.cons_append] at hcs
    rw [containsSeq, Bool.or_eq_false_iff] at hcs
    obtain ⟨h1, h2⟩ := hcs
    cases i with
    | succ i =>
      rw [List.cons_append, List.drop_succ_cons]
      exact ih rest h2 i (by simpa using hi)
    | zero =>
      simp only [List.cons_append, List.drop_zero]
      by_cases hxc : x = c
      · subst hxc
        rw [ipo_cons, beq_self_eq_true, Bool.true_and] at h1
        rw [ipo_cons, beq_self_eq_true, Bool.true_and]
        cases p' with
        | nil => simp [List.isPrefixOf] at h1
        | cons d p'' =>
          rw [List.cons_append, ipo_cons] at h1
          rw [List.cons_append, ipo_cons]
          rcases hb : (x == d) with _ | _
          · rw [Bool.false_and]
          · rw [hb, Bool.true_and] at h1
            exfalso
            have hnil : ([] : Str).isPrefixOf (p'' ++ [x]) = true :=
              List.isPrefixOf_iff_prefix.2 List.nil_prefix
            rw [hnil] at h1
            simp at h1
      · rw [ipo_cons, beq_eq_false_iff_ne.2 hxc, Bool.false_and]

theorem natDigitsAux_stable :
    ∀ (n f1 f2 : Nat), n < f1 → n < f2 →
      natDigitsAux f1 n = natDigitsAux f2 n := by
  intro n
  induction n using Nat.strong_induction_on with
  | _ n ih =>
    intro f1 f2 h1 h2
    match f1, h1 with
    | g1 + 1, h1 =>
      match f2, h2 with
      | g2 + 1, h2 =>
        by_cases hn : n < 10
        · simp only [natDigitsAux]
          rw [if_pos hn, if_pos hn]
        · have hd : n / 10 < n := Nat.div_lt_self (by omega) (by omega)
          simp only [natDigitsAux]
          rw [if_neg hn, if_neg hn,
            ih (n / 10) hd g1 g2 (by omega) (by omega)]

theorem natDigits_eq (n : Nat) :
    natDigits n = if n < 10 then [digitChar n]
      else natDigits (n / 10) ++ [digitChar (n % 10)] := by
  rw [natDigits]
  by_cases hn : n < 10
  · simp only [natDigitsAux]
    rw [if_pos hn, if_pos hn]
  · simp only [natDigitsAux]
    rw [if_neg hn, if_neg hn]
    congr 1
    have hd : n / 10 < n := Nat.div_lt_self (by omega) (by omega)
    exact natDigitsAux_stable (n / 10) n (n / 10 + 1) (by omega) (by omega)

theorem natDigits_ne_nil (n : Nat) : natDigits n ≠ [] := by
  rw [natDigits_eq]
  split
  · simp
  · simp

theorem natDigits_digit (n : Nat) :
    ∀ c ∈ natDigits n, (digitVal c).isSome := by
  induction n using Nat.strong_induction_on with
  | _ n ih =>
    have hbase : ∀ m < 10, (digitVal (digitChar m)).isSome := by decide
    rw [natDigits_eq]
    by_cases hn : n < 10
    · rw [if_pos hn]
      intro c hc
      rw [List.mem_singleton] at hc
      exact hc ▸ hbase n hn
    · rw [if_neg hn]
      intro c hc
      rcases List.mem_append.1 hc with hc | hc
      · exact ih (n / 10) (Nat.div_lt_self (by omega) (by omega)) c hc
      · rw [List.mem_singleton] at hc
        exact hc ▸ hbase (n % 10) (Nat.mod_lt n (by omega))

theorem digit_notMem_special (c : Char) (h : (digitVal c).isSome) :
    c ∉ (['_', '|', '@', 'w', '-', '+'] : Str) := by
  intro hmem
  fin_cases hmem <;> exact absurd h (by decide)

theorem parseDigitsAux_append :
    ∀ (xs : Str) (acc : Nat) (ys : Str),
      parseDigitsAux acc (xs ++ ys)
        = (parseDigitsAux acc xs).bind (fun a => parseDigitsAux a ys) := by
  intro xs
  induction xs with
  | nil => intro acc ys; rfl
  | cons c xs ih =>
    intro acc ys
    simp only [List.cons_append, parseDigitsAux]
    cases hd : digitVal c with
    | some d => exact ih (acc * 10 + d) ys
    | none => rfl

theorem parseDigitsAux_natDigits :
    ∀ (n acc : Nat),
      parseDigitsAux acc (natDigits n)
        = some (acc * 10 ^ (natDigits n).length + n) := by
  intro n
  induction n using Nat.strong_induction_on with
  | _ n ih =>
    intro acc
    have hbase : ∀ m < 10, digitVal (digitChar m) = some m := by decide
    rw [natDigits_eq]
    by_cases hn : n < 10
    · rw [if_pos hn]
      simp only [parseDigitsAux, hbase n hn]
      simp [pow_one]
    · rw [if_neg hn]
      rw [parseDigitsAux_append]
      have hd : n / 10 < n := Nat.div_lt_self (by omega) (by omega)
      rw [ih (n / 10) hd acc]
      simp only [Option.some_bind, parseDigitsAux,
        hbase (n % 10) (Nat.mod_lt n (by omega))]
      rw [List.length_append, List.length_singleton]
      congr 1
      have hmod := Nat.div_add_mod n 10
      calc (acc * 10 ^ (natDigits (n / 10)).length + n / 10) * 10 + n % 10
          = acc * (10 ^ (natDigits (n / 10)).length * 10)
            + (10 * (n / 10) + n % 10) := by ring
        _ = acc * 10 ^ ((natDigits (n / 10)).length + 1) + n := by
            rw [hmod, pow_succ]

theorem parseDigits_natDigits (n : Nat) :
    parseDigits (natDigits n) = some n := by
  have h1 : parseDigits (natDigits n) = parseDigitsAux 0 (natDigits n) := by
    cases hnd : natDigits n with
    | nil => exact absurd hnd (natDigits_ne_nil n)
    | cons c cs => rfl
  rw [h1, parseDigitsAux_natDigits]
  simp

theorem pyInt_digits (s : Str) (hne : s ≠ [])
    (hdig : ∀ c ∈ s, (digitVal c).isSome) :
    pyInt s = (parseDigits s).map (fun n => (n : Int)) := by
  match s, hne with
  | c :: rest, _ =>
    have hc := digit_notMem_special c (hdig c (List.mem_cons_self c rest))
    simp only [List.mem_cons, List.mem_singleton] at hc
    push_neg at hc
    rw [pyInt]
    rw [if_neg hc.2.2.2.2.1, if_neg hc.2.2.2.2.2.1]

theorem pyInt_natDigits (n : Nat) : pyInt (natDigits n) = some (n : Int) := by
  rw [pyInt_digits _ (natDigits_ne_nil n) (natDigits_digit n),
    parseDigits_natDigits]
  rfl

theorem uu_def : uu = '_' :: ['_'] := rfl

theorem barbar_def : barbar = '|' :: ['|'] := rfl

theorem bar_def : bar = '|' :: [] := rfl

theorem atTok_def : atTok = '@' :: [] := rfl

theorem windowTok_def : windowTok = 'w' :: ['i', 'n', 'd', 'o', 'w', '_'] := rfl

theorem pyReplace_cons (o : Char) (os new s : Str) :
    pyReplace (o :: os) new s = replaceAllAux o os new 0 s := rfl

theorem pySplit_cons (o : Char) (os s : Str) :
    pySplit (o :: os) s = splitOnAux o os 0 s := rfl

theorem joinParts_cons₂ (sep p q : Str) (ps : List Str) :
    joinParts sep (p :: q :: ps) = p ++ sep ++ joinParts sep (q :: ps) := rfl

theorem joinParts_single (sep p : Str) : joinParts sep [p] = p := rfl

theorem mem_joinParts (sep : Str) :
    ∀ (ps : List Str) (a : Char), a ∈ joinParts sep ps →
      a ∈ sep ∨ ∃ p ∈ ps, a ∈ p := by
  intro ps
  induction ps with
  | nil => intro a ha; simp [joinParts] at ha
  | cons p ps ih =>
    cases ps with
    | nil =>
      intro a ha
      right
      exact ⟨p, by simp, by simpa [joinParts] using ha⟩
    | cons q ps' =>
      intro a ha
      rw [joinParts_cons₂] at ha
      rcases List.mem_append.1 ha with ha | ha
      · rcases List.mem_append.1 ha with ha | ha
        · right; exact ⟨p, by simp, ha⟩
        · left; exact ha
      · rcases ih a ha with h | ⟨r, hr, har⟩
        · left; exact h
        · right; exact ⟨r, by simp [hr], har⟩

theorem partOk_noUU (p : Str) (hp : PartOk p) (rest : Str) :
    ∀ i, i < p.length → uu.isPrefixOf ((p ++ rest).drop i) = false :=
  fun i hi => skip_of_doubled '_' p rest hp.2.1 i hi

theorem partOk_noOccUU (p : Str) (hp : PartOk p) : NoOcc uu p := by
  have h1 : NoOcc uu (p ++ ['_']) :=
    (containsSeq_eq_false_iff '_' ['_'] _).1 hp.2.1
  exact noOcc_left_of_append '_' ['_'] p ['_'] h1

theorem pyReplace_uu (new s : Str) :
    pyReplace uu new s = replaceAllAux '_' ['_'] new 0 s := rfl

theorem pyReplace_barbar (new s : Str) :
    pyReplace barbar new s = replaceAllAux '|' ['|'] new 0 s := rfl

theorem pyReplace_bar (new s : Str) :
    pyReplace bar new s = replaceAllAux '|' [] new 0 s := rfl

theorem pyReplace_at (new s : Str) :
    pyReplace atTok new s = replaceAllAux '@' [] new 0 s := rfl

theorem pyReplace_window (new s : Str) :
    pyReplace windowTok new s
      = replaceAllAux 'w' ['i', 'n', 'd', 'o', 'w', '_'] new 0 s := rfl

theorem pySplit_uu (s : Str) : pySplit uu s = splitOnAux '_' ['_'] 0 s := rfl

theorem replaceAll_uu_step (new rest : Str) :
    replaceAllAux '_' ['_'] new 0 (uu ++ rest)
      = new ++ replaceAllAux '_' ['_'] new 0 rest :=
  replaceAll_step '_' ['_'] new rest

theorem replaceAll_barbar_step (new rest : Str) :
    replaceAllAux '|' ['|'] new 0 (barbar ++ rest)
      = new ++ replaceAllAux '|' ['|'] new 0 rest :=
  replaceAll_step '|' ['|'] new rest

theorem replaceAll_bar_step (new rest : Str) :
    replaceAllAux '|' [] new 0 (bar ++ rest)
      = new ++ replaceAllAux '|' [] new 0 rest :=
  replaceAll_step '|' [] new rest

theorem replaceAll_at_step (new rest : Str) :
    replaceAllAux '@' [] new 0 (atTok ++ rest)
      = new ++ replaceAllAux '@' [] new 0 rest :=
  replaceAll_step '@' [] new rest

theorem replaceAll_window_step (new rest : Str) :
    replaceAllAux 'w' ['i', 'n', 'd', 'o', 'w', '_'] new 0 (windowTok ++ rest)
      = new ++ replaceAllAux 'w' ['i', 'n', 'd', 'o', 'w', '_'] new 0 rest :=
  replaceAll_step 'w' ['i', 'n', 'd', 'o', 'w', '_'] new rest

theorem splitOn_uu_step (rest : Str) :
    splitOnAux '_' ['_'] 0 (uu ++ rest)
      = [] :: splitOnAux '_' ['_'] 0 rest :=
  splitOn_step '_' ['_'] rest

theorem replaceFirst_uu_step (new rest : Str) :
    replaceFirst uu new (uu ++ rest) = new ++ rest :=
  replaceFirst_step '_' ['_'] new rest

theorem replaceAll_uu_joinParts :
    ∀ (ps : List Str), (∀ p ∈ ps, PartOk p) →
      replaceAllAux '_' ['_'] bar 0 (joinParts uu ps) = joinParts bar ps := by
  intro ps
  induction ps with
  | nil => intro _; rfl
  | cons p ps ih =>
    intro hok
    cases ps with
    | nil =>
      exact replaceAll_id '_' ['_'] bar p (partOk_noOccUU p (hok p (by simp)))
    | cons q ps' =>
      rw [joinParts_cons₂, joinParts_cons₂, List.append_assoc,
        List.append_assoc]
      rw [replaceAll_skip '_' ['_'] bar p _ (partOk_noUU p (hok p (by simp)) _)]
      rw [replaceAll_uu_step]
      rw [ih (fun r hr => hok r (by simp [hr]))]

theorem encode_shape (p0 q : Str) (ps : List Str) (w : Int)
    (hp0 : PartOk p0) (hok : ∀ p ∈ q :: ps, PartOk p) (hw : 0 < w) :
    clean_feature_timeseries_name (joinParts uu (p0 :: q :: ps)) w
      = p0 ++ barbar ++ joinParts bar (q :: ps) ++ atTok ++ windowTok
        ++ natDigits w.toNat := by
  rw [clean_feature_timeseries_name]
  have hint : intStr w = natDigits w.toNat := by
    rw [intStr, if_neg (by omega)]
  rw [hint]
  have hX : pyReplace uu bar
      (replaceFirst uu barbar (joinParts uu (p0 :: q :: ps)))
      = p0 ++ barbar ++ joinParts bar (q :: ps) := by
    rw [joinParts_cons₂, List.append_assoc]
    rw [show replaceFirst uu barbar (p0 ++ (uu ++ joinParts uu (q :: ps)))
        = p0 ++ replaceFirst uu barbar (uu ++ joinParts uu (q :: ps)) from
      replaceFirst_skip '_' ['_'] barbar p0 _ (partOk_noUU p0 hp0 _)]
    rw [replaceFirst_uu_step]
    rw [pyReplace_uu]
    rw [replaceAll_skip '_' ['_'] bar p0 _ (partOk_noUU p0 hp0 _)]
    rw [replaceAll_skip '_' ['_'] bar barbar _
      (skip_of_head_notMem '_' ['_'] barbar _ (by decide))]
    rw [replaceAll_uu_joinParts (q :: ps) hok]
    rw [List.append_assoc]
  rw [hX]

theorem digit_ne_special (c : Char) (h : (digitVal c).isSome) :
    c ≠ '_' ∧ c ≠ '|' ∧ c ≠ '@' ∧ c ≠ 'w' := by
  have hm := digit_notMem_special c h
  simp only [List.mem_cons, List.mem_singleton] at hm
  push_neg at hm
  exact ⟨hm.1, hm.2.1, hm.2.2.1, hm.2.2.2.1⟩

theorem digits_notMem (x : Char) (hx : ¬ (digitVal x).isSome) (D : Str)
    (hdig : ∀ c ∈ D, (digitVal c).isSome) : x ∉ D :=
  fun hm => hx (hdig x hm)

theorem noOcc_uu_window (D : Str) (hne : D ≠ [])
    (hdig : ∀ c ∈ D, (digitVal c).isSome) :
    NoOcc uu (windowTok ++ D) := by
  have hshape : windowTok ++ D = ['w', 'i', 'n', 'd', 'o', 'w'] ++ ('_' :: D) := by
    rw [windowTok_def]
    simp
  rw [hshape]
  refine noOcc_append '_' ['_'] _ _
    (skip_of_head_notMem '_' ['_'] _ _ (by decide)) ?_
  intro i
  cases i with
  | zero =>
    match D, hne with
    | d :: D', _ =>
      have hd : (digitVal d).isSome := hdig d (by simp)
      have hne' : '_' ≠ d := fun he => (digit_ne_special d hd).1 he.symm
      simp only [List.drop_zero]
      show ('_' :: ['_']).isPrefixOf ('_' :: (d :: D')) = false
      rw [ipo_cons, beq_self_eq_true, Bool.true_and, ipo_cons,
        beq_eq_false_iff_ne.2 hne', Bool.false_and]
  | succ i =>
    rw [List.drop_succ_cons]
    exact noOcc_of_head_notMem '_' ['_'] D
      (digits_notMem '_' (by decide) D hdig) i

theorem noOcc_uu_joinParts_bar :
    ∀ (ps : List Str) (T : Str), (∀ p ∈ ps, PartOk p) → NoOcc uu T →
      NoOcc uu (joinParts bar ps ++ T) := by
  intro ps
  induction ps with
  | nil => intro T _ hT; simpa [joinParts] using hT
  | cons p ps ih =>
    cases ps with
    | nil =>
      intro T hok hT
      exact noOcc_append '_' ['_'] p T (partOk_noUU p (hok p (by simp)) T) hT
    | cons q ps' =>
      intro T hok hT
      rw [joinParts_cons₂, List.append_assoc, List.append_assoc]
      refine noOcc_append '_' ['_'] p _ (partOk_noUU p (hok p (by simp)) _) ?_
      refine noOcc_append '_' ['_'] bar _
        (skip_of_head_notMem '_' ['_'] bar _ (by decide)) ?_
      exact ih T (fun r hr => hok r (by simp [hr])) hT

theorem joinParts_head_append :
    ∀ (sep : Str) (q : Str) (ps : List Str),
      ∃ X, joinParts sep (q :: ps) = q ++ X := by
  intro sep q ps
  cases ps with
  | nil => exact ⟨[], by simp [joinParts_single]⟩
  | cons r rs =>
    exact ⟨sep ++ joinParts sep (r :: rs), by
      rw [joinParts_cons₂, List.append_assoc]⟩

theorem noOcc_barbar_joinParts :
    ∀ (ps : List Str) (T : Str), (∀ p ∈ ps, PartOk p) →
      (∀ c, T.head? = some c → c ≠ '|') → NoOcc barbar T →
      NoOcc barbar (joinParts bar ps ++ T) := by
  intro ps
  induction ps with
  | nil => intro T _ _ hT; simpa [joinParts] using hT
  | cons p ps ih =>
    cases ps with
    | nil =>
      intro T hok _ hT
      have hpnb : '|' ∉ p := (hok p (by simp)).2.2.1
      exact noOcc_append '|' ['|'] p T
        (skip_of_head_notMem '|' ['|'] p T hpnb) hT
    | cons q ps' =>
      intro T hok hTh hT
      rw [joinParts_cons₂, List.append_assoc, List.append_assoc]
      have hpnb : '|' ∉ p := (hok p (by simp)).2.2.1
      refine noOcc_append '|' ['|'] p _
        (skip_of_head_notMem '|' ['|'] p _ hpnb) ?_
      have hR := ih T (fun r hr => hok r (by simp [hr])) hTh hT
      intro i
      cases i with
      | succ i =>
        rw [show bar ++ (joinParts bar (q :: ps') ++ T)
            = '|' :: (joinParts bar (q :: ps') ++ T) from rfl,
          List.drop_succ_cons]
        exact hR i
      | zero =>
        simp only [List.drop_zero]
        obtain ⟨X, hX⟩ := joinParts_head_append bar q ps'
        have hq := hok q (by simp)
        match q, hq with
        | c :: q'', hq =>
          have hcq : c ≠ '|' := fun he =>
            hq.2.2.1 (he ▸ List.mem_cons_self c q'')
          rw [hX]
          show ('|' :: ['|']).isPrefixOf
            ('|' :: (((c :: q'') ++ X) ++ T)) = false
          rw [ipo_cons, beq_self_eq_true, Bool.true_and]
          rw [show ((c :: q'') ++ X) ++ T = c :: ((q'' ++ X) ++ T) by simp]
          rw [ipo_cons, beq_eq_false_iff_ne.2 (fun he => hcq he.symm),
            Bool.false_and]

theorem replaceAll_bar_joinParts :
    ∀ (ps : List Str) (T : Str), (∀ p ∈ ps, PartOk p) → '|' ∉ T →
      replaceAllAux '|' [] uu 0 (joinParts bar ps ++ T)
        = joinParts uu ps ++ T := by
  intro ps
  induction ps with
  | nil =>
    intro T _ hT
    simp only [joinParts, List.nil_append]
    exact replaceAll_id '|' [] uu T (noOcc_of_head_notMem '|' [] T hT)
  | cons p ps ih =>
    cases ps with
    | nil =>
      intro T hok hT
      have hpnb : '|' ∉ p := (hok p (by simp)).2.2.1
      rw [show joinParts bar [p] = p from rfl,
        show joinParts uu [p] = p from rfl]
      rw [replaceAll_skip '|' [] uu p T
        (skip_of_head_notMem '|' [] p T hpnb)]
      rw [replaceAll_id '|' [] uu T (noOcc_of_head_notMem '|' [] T hT)]
    | cons q ps' =>
      intro T hok hT
      rw [joinParts_cons₂, joinParts_cons₂, List.append_assoc,
        List.append_assoc, List.append_assoc, List.append_assoc]
      have hpnb : '|' ∉ p := (hok p (by simp)).2.2.1
      rw [replaceAll_skip '|' [] uu p _
        (skip_of_head_notMem '|' [] p _ hpnb)]
      rw [replaceAll_bar_step]
      rw [ih T (fun r hr => hok r (by simp [hr])) hT]

theorem splitOn_uu_joinParts :
    ∀ (ps : List Str) (W : Str), ps ≠ [] → (∀ p ∈ ps, PartOk p) →
      NoOcc uu W →
      splitOnAux '_' ['_'] 0 (joinParts uu ps ++ (uu ++ W)) = ps ++ [W] := by
  intro ps
  induction ps with
  | nil => intro W h; tauto
  | cons p ps ih =>
    cases ps with
    | nil =>
      intro W _ hok hW
      rw [show joinParts uu [p] = p from rfl]
      have hsplit : splitOnAux '_' ['_'] 0 (uu ++ W)
          = [] :: [W] := by
        rw [splitOn_uu_step, splitOn_single '_' ['_'] W hW]
      rw [splitOn_skip '_' ['_'] p (uu ++ W) [] [W] hsplit
        (partOk_noUU p (hok p (by simp)) _)]
      simp
    | cons q ps' =>
      intro W _ hok hW
      rw [joinParts_cons₂, List.append_assoc, List.append_assoc]
      have hrest := ih W (by simp) (fun r hr => hok r (by simp [hr])) hW
      have hsplit : splitOnAux '_' ['_'] 0
          (uu ++ (joinParts uu (q :: ps') ++ (uu ++ W)))
          = [] :: ((q :: ps') ++ [W]) := by
        rw [splitOn_uu_step, hrest]
      rw [splitOn_skip '_' ['_'] p _ [] ((q :: ps') ++ [W]) hsplit
        (partOk_noUU p (hok p (by simp)) _)]
      simp

/-- C1: round-trip law of the name codec.  For every canonical
double-underscore-delimited name (at least two segments, each non-empty
and free of `"__"`, trailing `'_'`, `'|'` and `'@'`) and every positive
window length, parsing the encoded name returns exactly that window
length and exactly the original segments as fts parts — so re-encoding
the fts portion, `clean_feature_timeseries_name (joinParts uu
fts_parts) w`, rebuilds the identical string. -/
theorem claim_C1_roundtrip (parts : List Str) (w : Int)
    (hparts : ∀ p ∈ parts, PartOk p) (hlen : 2 ≤ parts.length)
    (hw : 0 < w) :
    parse_feature_timeseries_parts
        (clean_feature_timeseries_name (joinParts uu parts) w)
      = .ok ⟨w, parts⟩ := by
  match parts, hlen with
  | p0 :: q :: ps, _ =>
    have hp0 : PartOk p0 := hparts p0 (by simp)
    have hok : ∀ p ∈ q :: ps, PartOk p := fun p hp => hparts p (by simp [hp])
    have hdigD : ∀ c ∈ natDigits w.toNat, (digitVal c).isSome :=
      natDigits_digit w.toNat
    have hDne : natDigits w.toNat ≠ [] := natDigits_ne_nil w.toNat
    rw [encode_shape p0 q ps w hp0 hok hw]
    rw [show p0 ++ barbar ++ joinParts bar (q :: ps) ++ atTok ++ windowTok
          ++ natDigits w.toNat
        = p0 ++ (barbar ++ (joinParts bar (q :: ps)
          ++ (atTok ++ (windowTok ++ natDigits w.toNat)))) from by
      simp [List.append_assoc]]
    -- membership facts for the fixed tag characters
    have hbarT : '|' ∉ atTok ++ (windowTok ++ natDigits w.toNat) := by
      intro hm
      rcases List.mem_append.1 hm with h | h
      · revert h; decide
      · rcases List.mem_append.1 h with h | h
        · revert h; decide
        · exact digits_notMem '|' (by decide) _ hdigD h
    have hatWD : '@' ∉ windowTok ++ natDigits w.toNat := by
      intro hm
      rcases List.mem_append.1 hm with h | h
      · revert h; decide
      · exact digits_notMem '@' (by decide) _ hdigD h
    have hatJ : '@' ∉ joinParts uu (q :: ps) := by
      intro hm
      rcases mem_joinParts uu (q :: ps) '@' hm with h | ⟨p, hp, hpin⟩
      · revert h; decide
      · exact (hok p hp).2.2.2 hpin
    have hheadT : ∀ c,
        (atTok ++ (windowTok ++ natDigits w.toNat)).head? = some c →
        c ≠ '|' := by
      intro c hc
      rw [show atTok ++ (windowTok ++ natDigits w.toNat)
          = '@' :: (windowTok ++ natDigits w.toNat) from rfl] at hc
      simp only [List.head?_cons, Option.some.injEq] at hc
      subst hc
      decide
    -- no-occurrence facts
    have hnoUU_T : NoOcc uu (atTok ++ (windowTok ++ natDigits w.toNat)) := by
      refine noOcc_append '_' ['_'] atTok _
        (skip_of_head_notMem '_' ['_'] atTok _ (by decide)) ?_
      exact noOcc_uu_window _ hDne hdigD
    have hnoUU_JT : NoOcc uu (joinParts bar (q :: ps)
        ++ (atTok ++ (windowTok ++ natDigits w.toNat))) :=
      noOcc_uu_joinParts_bar (q :: ps) _ hok hnoUU_T
    have hnoUU_E : NoOcc uu (p0 ++ (barbar ++ (joinParts bar (q :: ps)
        ++ (atTok ++ (windowTok ++ natDigits w.toNat))))) := by
      refine noOcc_append '_' ['_'] p0 _ (partOk_noUU p0 hp0 _) ?_
      exact noOcc_append '_' ['_'] barbar _
        (skip_of_head_notMem '_' ['_'] barbar _ (by decide)) hnoUU_JT
    have hnoBB_JT : NoOcc barbar (joinParts bar (q :: ps)
        ++ (atTok ++ (windowTok ++ natDigits w.toNat))) :=
      noOcc_barbar_joinParts (q :: ps) _ hok hheadT
        (noOcc_of_head_notMem '|' ['|'] _ hbarT)
    -- the token computation of the decoder
    have htok : fts_tokens (p0 ++ (barbar ++ (joinParts bar (q :: ps)
        ++ (atTok ++ (windowTok ++ natDigits w.toNat)))))
        = (p0 :: q :: ps) ++ [windowTok ++ natDigits w.toNat] := by
      rw [fts_tokens]
      rw [show (pySplit uu (p0 ++ (barbar ++ (joinParts bar (q :: ps)
            ++ (atTok ++ (windowTok ++ natDigits w.toNat)))))).headD []
          = p0 ++ (barbar ++ (joinParts bar (q :: ps)
            ++ (atTok ++ (windowTok ++ natDigits w.toNat)))) from by
        rw [pySplit_uu, splitOn_single '_' ['_'] _ hnoUU_E]
        rfl]
      have hR1 : pyReplace barbar uu (p0 ++ (barbar ++ (joinParts bar (q :: ps)
          ++ (atTok ++ (windowTok ++ natDigits w.toNat)))))
          = p0 ++ (uu ++ (joinParts bar (q :: ps)
            ++ (atTok ++ (windowTok ++ natDigits w.toNat)))) := by
        rw [pyReplace_barbar]
        rw [replaceAll_skip '|' ['|'] uu p0 _
          (skip_of_head_notMem '|' ['|'] p0 _ hp0.2.2.1)]
        rw [replaceAll_barbar_step]
        rw [replaceAll_id '|' ['|'] uu _ hnoBB_JT]
      rw [hR1]
      have hR2 : pyReplace bar uu (p0 ++ (uu ++ (joinParts bar (q :: ps)
          ++ (atTok ++ (windowTok ++ natDigits w.toNat)))))
          = p0 ++ (uu ++ (joinParts uu (q :: ps)
            ++ (atTok ++ (windowTok ++ natDigits w.toNat)))) := by
        rw [pyReplace_bar]
        rw [replaceAll_skip '|' [] uu p0 _
          (skip_of_head_notMem '|' [] p0 _ hp0.2.2.1)]
        congr 1
        rw [replaceAll_skip '|' [] uu uu _
          (skip_of_head_notMem '|' [] uu _ (by decide))]
        congr 1
        exact replaceAll_bar_joinParts (q :: ps) _ hok hbarT
      rw [hR2]
      have hR3 : pyReplace atTok uu (p0 ++ (uu ++ (joinParts uu (q :: ps)
          ++ (atTok ++ (windowTok ++ natDigits w.toNat)))))
          = p0 ++ (uu ++ (joinParts uu (q :: ps)
            ++ (uu ++ (windowTok ++ natDigits w.toNat)))) := by
        rw [pyReplace_at]
        rw [replaceAll_skip '@' [] uu p0 _
          (skip_of_head_notMem '@' [] p0 _ hp0.2.2.2)]
        congr 1
        rw [replaceAll_skip '@' [] uu uu _
          (skip_of_head_notMem '@' [] uu _ (by decide))]
        congr 1
        rw [replaceAll_skip '@' [] uu (joinParts uu (q :: ps)) _
          (skip_of_head_notMem '@' [] _ _ hatJ)]
        congr 1
        rw [replaceAll_at_step]
        congr 1
        exact replaceAll_id '@' [] uu _
          (noOcc_of_head_notMem '@' [] _ hatWD)
      rw [hR3]
      rw [pySplit_uu]
      rw [show p0 ++ (uu ++ (joinParts uu (q :: ps)
            ++ (uu ++ (windowTok ++ natDigits w.toNat))))
          = joinParts uu (p0 :: q :: ps)
            ++ (uu ++ (windowTok ++ natDigits w.toNat)) from by
        rw [joinParts_cons₂]
        simp [List.append_assoc]]
      exact splitOn_uu_joinParts (p0 :: q :: ps) _ (by simp) hparts
        (noOcc_uu_window _ hDne hdigD)
    -- evaluate the decoder
    have hlast : (((p0 :: q :: ps)
        ++ [windowTok ++ natDigits w.toNat]) : List Str).getLastD []
        = windowTok ++ natDigits w.toNat := by
      rw [List.getLastD_eq_getLast?, List.getLast?_concat]
      rfl
    have hcontains : containsSeq windowTok
        (windowTok ++ natDigits w.toNat) = true := by
      rw [show windowTok ++ natDigits w.toNat
          = 'w' :: (['i', 'n', 'd', 'o', 'w', '_'] ++ natDigits w.toNat)
        from by rw [windowTok_def]; simp]
      rw [containsSeq]
      rw [show windowTok.isPrefixOf
          ('w' :: (['i', 'n', 'd', 'o', 'w', '_'] ++ natDigits w.toNat))
          = true from ipo_append_self windowTok (natDigits w.toNat)]
      simp
    have hstrip : pyReplace windowTok [] (windowTok ++ natDigits w.toNat)
        = natDigits w.toNat := by
      rw [pyReplace_window, replaceAll_window_step]
      rw [List.nil_append]
      exact replaceAll_id 'w' _ [] _
        (noOcc_of_head_notMem 'w' _ _ (digits_notMem 'w' (by decide) _ hdigD))
    have hpy : pyInt (natDigits w.toNat) = some w := by
      rw [pyInt_natDigits]
      congr 1
      omega
    rw [parse_feature_timeseries_parts]
    simp only [htok, hlast]
    rw [if_neg (by rw [hcontains]; simp)]
    rw [hstrip, hpy]
    have hdrop : ((p0 :: q :: ps)
        ++ [windowTok ++ natDigits w.toNat]).dropLast = p0 :: q :: ps := by
      rw [List.dropLast_concat]
    show (if ((p0 :: q :: ps)
          ++ [windowTok ++ natDigits w.toNat]).dropLast.length = 1
        then (Except.error PyError.valueError : Except PyError FtsInfo)
        else Except.ok ⟨w, ((p0 :: q :: ps)
          ++ [windowTok ++ natDigits w.toNat]).dropLast⟩)
      = Except.ok ⟨w, p0 :: q :: ps⟩
    rw [hdrop]
    rw [if_neg (by simp)]

/-- C1 witness: the canonical name `"temperature__mean__lag_1"` with
window length 5 round-trips through encode and decode. -/
theorem claim_C1_roundtrip_witness :
    parse_feature_timeseries_parts
        (clean_feature_timeseries_name
          (joinParts uu
            ["temperature".toList, "mean".toList, "lag_1".toList]) 5)
      = .ok ⟨5, ["temperature".toList, "mean".toList, "lag_1".toList]⟩ :=
  claim_C1_roundtrip
    ["temperature".toList, "mean".toList, "lag_1".toList] 5
    (by decide) (by decide) (by decide)

end Tsfresh
